import Mathlib

/-!
Shallow embedding of the `str-cursor` crate: a cursor over a `str` buffer with
a movable highlight window and pluggable position trackers ("spanners").

Strings are modelled as their list of Unicode code points (`List Char`); byte
offsets are recovered through each code point's UTF-8 encoded width
(`Char.utf8Size`, the model of Rust's `char::len_utf8`).
-/

/-- A `str` slice, modelled as its list of Unicode code points. -/
abbrev Str := List Char

/-- UTF-8 byte length of a string: the sum of the encoded widths of its code
points (model of Rust's `str::len`). -/
def utf8Len (s : Str) : Nat := (s.map Char.utf8Size).sum

@[simp] theorem utf8Len_nil : utf8Len [] = 0 := rfl

@[simp] theorem utf8Len_cons (c : Char) (s : Str) :
    utf8Len (c :: s) = c.utf8Size + utf8Len s := by
  simp [utf8Len]

@[simp] theorem utf8Len_append (a b : Str) :
    utf8Len (a ++ b) = utf8Len a + utf8Len b := by
  simp [utf8Len]

/-- The prefix of `s` occupying the first `n` bytes (model of `s[..n]` for a
byte offset `n` lying on a code-point boundary). -/
def takeBytes : Str → Nat → Str
  | [], _ => []
  | c :: cs, n => if c.utf8Size ≤ n then c :: takeBytes cs (n - c.utf8Size) else []

/-- The suffix of `s` after its first `n` bytes (model of `s[n..]` for a byte
offset `n` lying on a code-point boundary). -/
def dropBytes : Str → Nat → Str
  | [], _ => []
  | c :: cs, n => if c.utf8Size ≤ n then dropBytes cs (n - c.utf8Size) else c :: cs

theorem takeBytes_zero (s : Str) : takeBytes s 0 = [] := by
  cases s with
  | nil => rfl
  | cons c cs =>
    simp [takeBytes, Nat.not_le.mpr c.utf8Size_pos]

theorem dropBytes_zero (s : Str) : dropBytes s 0 = s := by
  cases s with
  | nil => rfl
  | cons c cs =>
    simp [dropBytes, Nat.not_le.mpr c.utf8Size_pos]

theorem takeBytes_utf8Len_append (pre suf : Str) :
    takeBytes (pre ++ suf) (utf8Len pre) = pre := by
  induction pre with
  | nil => simpa using takeBytes_zero suf
  | cons c cs ih =>
    simp [takeBytes, Nat.le_add_right, Nat.add_sub_cancel_left, ih]

theorem dropBytes_utf8Len_append (pre suf : Str) :
    dropBytes (pre ++ suf) (utf8Len pre) = suf := by
  induction pre with
  | nil => simpa using dropBytes_zero suf
  | cons c cs ih =>
    simp [dropBytes, Nat.le_add_right, Nat.add_sub_cancel_left, ih]

theorem takeBytes_utf8Len_take (s : Str) (k : Nat) :
    takeBytes s (utf8Len (s.take k)) = s.take k := by
  have h := takeBytes_utf8Len_append (s.take k) (s.drop k)
  rwa [List.take_append_drop] at h

theorem utf8Len_takeBytes_le (s : Str) (n : Nat) :
    utf8Len (takeBytes s n) ≤ n := by
  induction s generalizing n with
  | nil => simp [takeBytes]
  | cons c cs ih =>
    by_cases h : c.utf8Size ≤ n
    · have h2 := ih (n - c.utf8Size)
      simp only [takeBytes, h, if_true, utf8Len_cons]
      omega
    · simp [takeBytes, h]

/-- The interface of the `Spanner` trait: a position-tracking strategy over
a state type `S`, with the four operations of `src/spanner.rs`. -/
structure Spanner (S : Type) where
  forward : S → Char → S
  backward : S → Char → S
  validate : S → S
  forward_str : S → Str → S

/-- Applying `forward` once per code point of `l`, in order: the reference
semantics of a bulk forward update (the trait's default `forward_str`). -/
def foldForward {S : Type} (ops : Spanner S) (s : S) (l : Str) : S :=
  l.foldl ops.forward s

@[simp] theorem foldForward_nil {S : Type} (ops : Spanner S) (s : S) :
    foldForward ops s [] = s := rfl

@[simp] theorem foldForward_append {S : Type} (ops : Spanner S) (s : S) (a b : Str) :
    foldForward ops s (a ++ b) = foldForward ops (foldForward ops s a) b := by
  simp [foldForward]

/-- The `StrCursor` struct of `src/lib.rs`. -/
@[ext] structure StrCursor (S : Type) where
  base : Str
  highlight_length : Nat
  spanner_tail : S
  spanner_head : S

namespace StrCursor

variable {S : Type}

/-- `StrCursor::with_spanner`. -/
def with_spanner (s : Str) (spanner : S) : StrCursor S :=
  { base := s, highlight_length := 0, spanner_head := spanner, spanner_tail := spanner }

/-- `StrCursor::highlight`: the slice `base[..highlight_length]`. -/
def highlight (c : StrCursor S) : Str := takeBytes c.base c.highlight_length

/-- `StrCursor::post`: the slice `base[highlight_length..]`. -/
def post (c : StrCursor S) : Str := dropBytes c.base c.highlight_length

/-- `StrCursor::highlight_empty`. -/
def highlight_empty (c : StrCursor S) : Bool := c.highlight_length == 0

/-- `StrCursor::post_empty`. -/
def post_empty (c : StrCursor S) : Bool := c.highlight_length == utf8Len c.base

/-- `StrCursor::step`: reads the first code point of `post`; advances
`highlight_length` by its encoded width and moves the head tracker forward. -/
def step (ops : Spanner S) (c : StrCursor S) : Option Char × StrCursor S :=
  match c.post with
  | [] => (none, c)
  | ch :: _ =>
    (some ch,
      { c with
        highlight_length := c.highlight_length + ch.utf8Size,
        spanner_head := ops.forward c.spanner_head ch })

/-- `StrCursor::unstep`: reads the last code point of `highlight` with its byte
index (`char_indices().next_back()`), shrinks `highlight_length` to that index
and moves the head tracker backward. -/
def unstep (ops : Spanner S) (c : StrCursor S) : Option Char × StrCursor S :=
  match c.highlight.getLast? with
  | none => (none, c)
  | some ch =>
    (some ch,
      { c with
        highlight_length := utf8Len c.highlight.dropLast,
        spanner_head := ops.backward c.spanner_head ch })

/-- `StrCursor::step_until`: `find` models `pat.find` of `src/pattern.rs`,
returning a byte offset into the given slice. The offset defaults to the whole
post slice when there is no match; the consumed slice is fed to the bulk
forward update. -/
def step_until (ops : Spanner S) (find : Str → Option Nat) (c : StrCursor S) :
    Str × StrCursor S :=
  let rem_str := c.post
  let offset := (find rem_str).getD (utf8Len rem_str)
  let res := takeBytes rem_str offset
  (res,
    { c with
      highlight_length := c.highlight_length + offset,
      spanner_head := ops.forward_str c.spanner_head res })

/-- `StrCursor::validate`: drops the highlight from `base`, resets
`highlight_length`, notifies the head tracker and copies it into the tail. -/
def validate (ops : Spanner S) (c : StrCursor S) : StrCursor S :=
  let head := ops.validate c.spanner_head
  { base := dropBytes c.base c.highlight_length
    highlight_length := 0
    spanner_head := head
    spanner_tail := head }

/-- `StrCursor::then_validate`: runs `f` on the current highlight, validating
when the result is `ok`. -/
def then_validate {T E : Type} (ops : Spanner S) (f : Str → Except E T)
    (c : StrCursor S) : Except E T × StrCursor S :=
  match f c.highlight with
  | Except.ok t => (Except.ok t, c.validate ops)
  | Except.error e => (Except.error e, c)

end StrCursor

/-! ### The four spanner strategies of `src/spanner.rs` -/

/-- `NoOpSpanner`: carries no state, every operation is a no-op (its
`forward_str` is also overridden to a no-op). -/
def NoOpSpanner : Spanner Unit :=
  { forward := fun s _ => s
    backward := fun s _ => s
    validate := fun s => s
    forward_str := fun s _ => s }

/-- `ByteSpanner`: counts how many bytes have been passed. -/
structure ByteSpanner where
  bytes : Nat
  deriving DecidableEq

/-- The `Spanner` impl for `ByteSpanner`. Rust's `usize` subtraction in
`backward` is modelled by truncated `Nat` subtraction; the crate only calls
`backward` right after a matching `forward`, where no underflow can occur. -/
def ByteSpanner.ops : Spanner ByteSpanner :=
  { forward := fun s c => { bytes := s.bytes + c.utf8Size }
    backward := fun s c => { bytes := s.bytes - c.utf8Size }
    validate := fun s => s
    forward_str := fun s l => { bytes := s.bytes + utf8Len l } }

/-- `CharSpanner`: counts how many code points have been passed. -/
structure CharSpanner where
  kars : Nat
  deriving DecidableEq

/-- The `Spanner` impl for `CharSpanner`; its `forward_str` adds
`s.chars().count()`, the number of code points of the slice. -/
def CharSpanner.ops : Spanner CharSpanner :=
  { forward := fun s _ => { kars := s.kars + 1 }
    backward := fun s _ => { kars := s.kars - 1 }
    validate := fun s => s
    forward_str := fun s l => { kars := s.kars + l.length } }

/-- Rust's `char::is_control`: the Unicode `Cc` category,
`U+0000..=U+001F` and `U+007F..=U+009F`. -/
def charIsControl (c : Char) : Bool :=
  c.val < 32 || (127 ≤ c.val && c.val ≤ 159)

/-- `RowColSpanner`: rows, columns, and the stack of columns saved at each
uncommitted newline. -/
structure RowColSpanner where
  row : Nat
  col : Nat
  old_cols : List Nat
  deriving DecidableEq

/-- `RowColSpanner`'s `forward`: a newline pushes the column and opens a new
row; any other control code point is a no-op; anything else bumps the column. -/
def RowColSpanner.forward (s : RowColSpanner) (c : Char) : RowColSpanner :=
  if c = '\n' then { row := s.row + 1, col := 0, old_cols := s.col :: s.old_cols }
  else if charIsControl c then s
  else { s with col := s.col + 1 }

/-- `RowColSpanner`'s `backward`. On `'\n'` the Rust code does
`old_cols.pop().unwrap()`, which panics when the stack is empty (a contract
violation, per the crate: `backward` only follows a matching `forward`); the
panic branch is modelled by `headD 0`. -/
def RowColSpanner.backward (s : RowColSpanner) (c : Char) : RowColSpanner :=
  if c = '\n' then
    { row := s.row - 1, col := s.old_cols.headD 0, old_cols := s.old_cols.tail }
  else if charIsControl c then s
  else { s with col := s.col - 1 }

/-- The `Spanner` impl for `RowColSpanner`; `validate` clears the saved-column
stack, and `forward_str` is left to the trait's default (one `forward` per
code point). -/
def RowColSpanner.ops : Spanner RowColSpanner :=
  { forward := RowColSpanner.forward
    backward := RowColSpanner.backward
    validate := fun s => { s with old_cols := [] }
    forward_str := fun s l => l.foldl RowColSpanner.forward s }

/-! ### Patterns (`src/pattern.rs`)

Every built-in `Pattern` impl delegates to `str::find`, which returns the byte
offset of the first match. Semantically the impls fall in two families: those
matching a single code point against a test (a `char`, a `char` slice/array,
a closure) and those searching for a literal substring (`&str`, `&String`,
`&&str`). -/

/-- Byte offset of the first code point satisfying `p`: `str::find` for the
`char`, `[char]` and closure patterns. -/
def findChar (p : Char → Bool) : Str → Option Nat
  | [] => none
  | c :: cs => if p c then some 0 else (findChar p cs).map (· + c.utf8Size)

/-- Byte offset of the first occurrence of `needle` as a contiguous substring:
`str::find` for the `&str`-like patterns. -/
def findStr (needle : Str) : Str → Option Nat
  | [] => if needle.isEmpty then some 0 else none
  | c :: cs =>
    if needle.isPrefixOf (c :: cs) then some 0
    else (findStr needle cs).map (· + c.utf8Size)

/-- A find function is valid when every offset it returns lies on a code-point
boundary of its input (the contract `step_until` trusts patterns to honour). -/
def ValidFind (find : Str → Option Nat) : Prop :=
  ∀ s off, find s = some off → ∃ k, off = utf8Len (List.take k s)

/-- The byte offset of the cursor's head lies on a code-point boundary of
`base`: the highlight is the byte image of a code-point prefix. -/
def Aligned {S : Type} (c : StrCursor S) : Prop :=
  ∃ pre suf, c.base = pre ++ suf ∧ c.highlight_length = utf8Len pre

/-- States reachable from a given state by the cursor's mutating operations,
with patterns restricted to valid find functions. -/
inductive Reach {S : Type} (ops : Spanner S) (c₀ : StrCursor S) : StrCursor S → Prop
  | refl : Reach ops c₀ c₀
  | step (c : StrCursor S) : Reach ops c₀ c → Reach ops c₀ (c.step ops).2
  | unstep (c : StrCursor S) : Reach ops c₀ c → Reach ops c₀ (c.unstep ops).2
  | step_until (c : StrCursor S) (find : Str → Option Nat) :
      ValidFind find → Reach ops c₀ c → Reach ops c₀ (c.step_until ops find).2
  | validate (c : StrCursor S) : Reach ops c₀ c → Reach ops c₀ (c.validate ops)
  | then_validate {T E : Type} (c : StrCursor S) (f : Str → Except E T) :
      Reach ops c₀ c → Reach ops c₀ (c.then_validate ops f).2

/-- States reachable from some freshly created cursor. -/
def Reachable {S : Type} (ops : Spanner S) (c : StrCursor S) : Prop :=
  ∃ s spanner, Reach ops (StrCursor.with_spanner s spanner) c

/-! ### Aligned-state characterizations of the cursor operations -/

theorem highlight_of_aligned {S : Type} {c : StrCursor S} {pre suf : Str}
    (hb : c.base = pre ++ suf) (hh : c.highlight_length = utf8Len pre) :
    c.highlight = pre := by
  simp [StrCursor.highlight, hb, hh, takeBytes_utf8Len_append]

theorem post_of_aligned {S : Type} {c : StrCursor S} {pre suf : Str}
    (hb : c.base = pre ++ suf) (hh : c.highlight_length = utf8Len pre) :
    c.post = suf := by
  simp [StrCursor.post, hb, hh, dropBytes_utf8Len_append]

theorem step_aligned {S : Type} (ops : Spanner S) {c : StrCursor S} {pre : Str}
    {ch : Char} {rest : Str}
    (hb : c.base = pre ++ ch :: rest) (hh : c.highlight_length = utf8Len pre) :
    c.step ops =
      (some ch,
        { base := c.base
          highlight_length := utf8Len (pre ++ [ch])
          spanner_tail := c.spanner_tail
          spanner_head := ops.forward c.spanner_head ch }) := by
  have hp : c.post = ch :: rest := post_of_aligned hb hh
  simp only [StrCursor.step, hp]
  refine Prod.ext rfl ?_
  refine StrCursor.ext rfl ?_ rfl rfl
  simp [hh, Nat.add_comm]

theorem unstep_aligned {S : Type} (ops : Spanner S) {c : StrCursor S} {pre : Str}
    {ch : Char} {suf : Str}
    (hb : c.base = (pre ++ [ch]) ++ suf)
    (hh : c.highlight_length = utf8Len (pre ++ [ch])) :
    c.unstep ops =
      (some ch,
        { base := c.base
          highlight_length := utf8Len pre
          spanner_tail := c.spanner_tail
          spanner_head := ops.backward c.spanner_head ch }) := by
  have hl : c.highlight = pre ++ [ch] := highlight_of_aligned hb hh
  simp [StrCursor.unstep, hl, List.getLast?_concat, List.dropLast_concat]

theorem step_until_aligned {S : Type} (ops : Spanner S) {find : Str → Option Nat}
    (hf : ValidFind find) {c : StrCursor S} {pre suf : Str}
    (hb : c.base = pre ++ suf) (hh : c.highlight_length = utf8Len pre) :
    ∃ res rest, suf = res ++ rest ∧
      (find suf = none → rest = []) ∧
      (∀ off, find suf = some off → off = utf8Len res) ∧
      c.step_until ops find =
        (res,
          { base := c.base
            highlight_length := utf8Len (pre ++ res)
            spanner_tail := c.spanner_tail
            spanner_head := ops.forward_str c.spanner_head res }) := by
  have hp : c.post = suf := post_of_aligned hb hh
  cases hfind : find suf with
  | none =>
    refine ⟨suf, [], by simp, fun _ => rfl, by simp [hfind], ?_⟩
    have hres : takeBytes suf (utf8Len suf) = suf := by
      simpa using takeBytes_utf8Len_append suf []
    simp only [StrCursor.step_until, hp, hfind, Option.getD_none, hres]
    refine Prod.ext rfl ?_
    refine StrCursor.ext rfl ?_ rfl rfl
    simp [hh]
  | some off =>
    obtain ⟨k, hk⟩ := hf suf off hfind
    refine ⟨suf.take k, suf.drop k, (List.take_append_drop k suf).symm,
      by simp [hfind], ?_, ?_⟩
    · intro off2 hoff2
      have h3 : off = off2 := Option.some.inj hoff2
      rw [← h3]
      exact hk
    · have hres : takeBytes suf off = suf.take k := by
        rw [hk]
        exact takeBytes_utf8Len_take suf k
      simp only [StrCursor.step_until, hp, hfind, Option.getD_some, hres]
      refine Prod.ext rfl ?_
      refine StrCursor.ext rfl ?_ rfl rfl
      simp [hh, hk]

/-! ### Per-strategy algebraic facts -/

theorem noOp_backward_forward (s : Unit) (c : Char) :
    NoOpSpanner.backward (NoOpSpanner.forward s c) c = s := rfl

theorem byte_backward_forward (s : ByteSpanner) (c : Char) :
    ByteSpanner.ops.backward (ByteSpanner.ops.forward s c) c = s := by
  simp [ByteSpanner.ops]

theorem char_backward_forward (s : CharSpanner) (c : Char) :
    CharSpanner.ops.backward (CharSpanner.ops.forward s c) c = s := by
  simp [CharSpanner.ops]

theorem rowCol_backward_forward (s : RowColSpanner) (c : Char) :
    RowColSpanner.ops.backward (RowColSpanner.ops.forward s c) c = s := by
  show RowColSpanner.backward (RowColSpanner.forward s c) c = s
  by_cases h1 : c = '\n'
  · simp [RowColSpanner.forward, RowColSpanner.backward, h1]
  · by_cases h2 : charIsControl c
    · simp [RowColSpanner.forward, RowColSpanner.backward, h1, h2]
    · simp [RowColSpanner.forward, RowColSpanner.backward, h1, h2]

theorem noOp_forward_str_fold (s : Unit) (l : Str) :
    NoOpSpanner.forward_str s l = foldForward NoOpSpanner s l := by
  induction l with
  | nil => rfl
  | cons c cs ih => simp [foldForward, NoOpSpanner]

theorem byte_forward_str_fold (s : ByteSpanner) (l : Str) :
    ByteSpanner.ops.forward_str s l = foldForward ByteSpanner.ops s l := by
  induction l generalizing s with
  | nil => simp [ByteSpanner.ops, foldForward]
  | cons c cs ih =>
    have h := ih { bytes := s.bytes + c.utf8Size }
    simp only [foldForward, List.foldl_cons] at h ⊢
    show ({ bytes := s.bytes + utf8Len (c :: cs) } : ByteSpanner) = _
    rw [show ByteSpanner.ops.forward s c = { bytes := s.bytes + c.utf8Size } from rfl,
      ← h]
    show ({ bytes := s.bytes + utf8Len (c :: cs) } : ByteSpanner)
      = { bytes := s.bytes + c.utf8Size + utf8Len cs }
    simp [Nat.add_assoc]

theorem char_forward_str_fold (s : CharSpanner) (l : Str) :
    CharSpanner.ops.forward_str s l = foldForward CharSpanner.ops s l := by
  induction l generalizing s with
  | nil => simp [CharSpanner.ops, foldForward]
  | cons c cs ih =>
    have h := ih { kars := s.kars + 1 }
    simp only [foldForward, List.foldl_cons] at h ⊢
    show ({ kars := s.kars + (cs.length + 1) } : CharSpanner) = _
    rw [show CharSpanner.ops.forward s c = { kars := s.kars + 1 } from rfl, ← h]
    show ({ kars := s.kars + (cs.length + 1) } : CharSpanner)
      = { kars := s.kars + 1 + cs.length }
    congr 1
    omega

theorem rowCol_forward_str_fold (s : RowColSpanner) (l : Str) :
    RowColSpanner.ops.forward_str s l = foldForward RowColSpanner.ops s l := rfl

@[simp] theorem foldForward_singleton {S : Type} (ops : Spanner S) (s : S) (c : Char) :
    foldForward ops s [c] = ops.forward s c := rfl

theorem validate_establishes {S : Type} (ops : Spanner S) (c : StrCursor S)
    (ha : Aligned c) :
    Aligned (c.validate ops) ∧
      (c.validate ops).spanner_head
        = foldForward ops (c.validate ops).spanner_tail (c.validate ops).highlight := by
  obtain ⟨pre, suf, hb, hh⟩ := ha
  have hbase : (c.validate ops).base = suf := by
    simp only [StrCursor.validate, hb, hh]
    exact dropBytes_utf8Len_append pre suf
  refine ⟨⟨[], suf, by simpa using hbase, rfl⟩, ?_⟩
  have hhl : (c.validate ops).highlight = [] := by
    simp [StrCursor.highlight, StrCursor.validate, takeBytes_zero]
  rw [hhl]
  rfl

/-- Master invariant: every state reachable from a freshly created cursor is
aligned, and its head tracker is the forward-fold of the current highlight
starting from the tail tracker. Generic in the strategy, under exact-inverse
`backward` and a bulk `forward_str` agreeing with repeated `forward`. -/
theorem reach_invariant {S : Type} (ops : Spanner S)
    (hfb : ∀ s ch, ops.backward (ops.forward s ch) ch = s)
    (hfs : ∀ s l, ops.forward_str s l = foldForward ops s l)
    {s0 : Str} {sp : S} {c : StrCursor S}
    (h : Reach ops (StrCursor.with_spanner s0 sp) c) :
    Aligned c ∧ c.spanner_head = foldForward ops c.spanner_tail c.highlight := by
  induction h with
  | refl =>
    refine ⟨⟨[], s0, rfl, rfl⟩, ?_⟩
    have h0 : (StrCursor.with_spanner s0 sp).highlight = [] := by
      simp [StrCursor.with_spanner, StrCursor.highlight, takeBytes_zero]
    rw [h0]
    rfl
  | step c hc ih =>
    obtain ⟨⟨pre, suf, hb, hh⟩, hinv⟩ := ih
    cases suf with
    | nil =>
      have hp : c.post = [] := post_of_aligned hb hh
      have hid : (c.step ops).2 = c := by simp [StrCursor.step, hp]
      rw [hid]
      exact ⟨⟨pre, [], hb, hh⟩, hinv⟩
    | cons ch rest =>
      have hstep := step_aligned ops hb hh
      rw [hstep]
      have hb' : c.base = (pre ++ [ch]) ++ rest := by simpa using hb
      refine ⟨⟨pre ++ [ch], rest, hb', rfl⟩, ?_⟩
      have hhl : takeBytes c.base (utf8Len (pre ++ [ch])) = pre ++ [ch] := by
        rw [hb']
        exact takeBytes_utf8Len_append _ _
      have hpre : c.highlight = pre := highlight_of_aligned hb hh
      show ops.forward c.spanner_head ch
        = foldForward ops c.spanner_tail (takeBytes c.base (utf8Len (pre ++ [ch])))
      rw [hhl, hinv, hpre]
      simp
  | unstep c hc ih =>
    obtain ⟨⟨pre, suf, hb, hh⟩, hinv⟩ := ih
    rcases List.eq_nil_or_concat pre with hpre | ⟨L, ch, hpre⟩
    · subst hpre
      have hhl : c.highlight = [] := highlight_of_aligned hb hh
      have hid : (c.unstep ops).2 = c := by simp [StrCursor.unstep, hhl]
      rw [hid]
      exact ⟨⟨[], suf, hb, hh⟩, hinv⟩
    · rw [List.concat_eq_append] at hpre
      subst hpre
      have hun := @unstep_aligned S ops c L ch suf hb hh
      rw [hun]
      have hb' : c.base = L ++ (ch :: suf) := by simpa using hb
      refine ⟨⟨L, ch :: suf, hb', rfl⟩, ?_⟩
      have hhl : takeBytes c.base (utf8Len L) = L := by
        rw [hb']
        exact takeBytes_utf8Len_append _ _
      have hpre2 : c.highlight = L ++ [ch] := highlight_of_aligned hb hh
      show ops.backward c.spanner_head ch
        = foldForward ops c.spanner_tail (takeBytes c.base (utf8Len L))
      rw [hhl, hinv, hpre2]
      simp [hfb]
  | step_until c find hfv hc ih =>
    obtain ⟨⟨pre, suf, hb, hh⟩, hinv⟩ := ih
    obtain ⟨res, rest2, hsuf, _, _, heq⟩ := step_until_aligned ops hfv hb hh
    rw [heq]
    have hb' : c.base = (pre ++ res) ++ rest2 := by
      rw [hb, hsuf, List.append_assoc]
    refine ⟨⟨pre ++ res, rest2, hb', rfl⟩, ?_⟩
    have hhl : takeBytes c.base (utf8Len (pre ++ res)) = pre ++ res := by
      rw [hb']
      exact takeBytes_utf8Len_append _ _
    have hpre : c.highlight = pre := highlight_of_aligned hb hh
    show ops.forward_str c.spanner_head res
      = foldForward ops c.spanner_tail (takeBytes c.base (utf8Len (pre ++ res)))
    rw [hhl, hfs, hinv, hpre]
    simp
  | validate c hc ih =>
    exact validate_establishes ops c ih.1
  | then_validate c f hc ih =>
    cases hres : f c.highlight with
    | ok t =>
      have hid : (c.then_validate ops f).2 = c.validate ops := by
        simp [StrCursor.then_validate, hres]
      rw [hid]
      exact validate_establishes ops c ih.1
    | error e =>
      have hid : (c.then_validate ops f).2 = c := by
        simp [StrCursor.then_validate, hres]
      rw [hid]
      exact ih

/-! ### Step/unstep roundtrips -/

/-- `k` consecutive calls to `step`, keeping only the final state. -/
def stepN {S : Type} (ops : Spanner S) : Nat → StrCursor S → StrCursor S
  | 0, c => c
  | n + 1, c => stepN ops n (c.step ops).2

/-- `k` consecutive calls to `unstep`, keeping only the final state. -/
def unstepN {S : Type} (ops : Spanner S) : Nat → StrCursor S → StrCursor S
  | 0, c => c
  | n + 1, c => ((unstepN ops n c).unstep ops).2

theorem unstep_step {S : Type} (ops : Spanner S)
    (hfb : ∀ s ch, ops.backward (ops.forward s ch) ch = s)
    {c : StrCursor S} {pre : Str} {ch : Char} {rest : Str}
    (hb : c.base = pre ++ ch :: rest) (hh : c.highlight_length = utf8Len pre) :
    ((c.step ops).2.unstep ops).2 = c := by
  have hstep := step_aligned ops hb hh
  have hb2 : (c.step ops).2.base = (pre ++ [ch]) ++ rest := by
    rw [hstep]
    simpa using hb
  have hh2 : (c.step ops).2.highlight_length = utf8Len (pre ++ [ch]) := by
    rw [hstep]
  have hun := unstep_aligned ops hb2 hh2
  rw [hun]
  have hhead : (c.step ops).2.spanner_head = ops.forward c.spanner_head ch := by
    rw [hstep]
  have hbase : (c.step ops).2.base = c.base := by rw [hstep]
  have htail : (c.step ops).2.spanner_tail = c.spanner_tail := by rw [hstep]
  refine StrCursor.ext hbase ?_ htail ?_
  · exact hh.symm
  · rw [hhead]
    exact hfb c.spanner_head ch

theorem unstepN_stepN {S : Type} (ops : Spanner S)
    (hfb : ∀ s ch, ops.backward (ops.forward s ch) ch = s) :
    ∀ (k : Nat) (c : StrCursor S), Aligned c → k ≤ c.post.length →
      unstepN ops k (stepN ops k c) = c := by
  intro k
  induction k with
  | zero => intro c _ _; rfl
  | succ n ih =>
    rintro c ⟨pre, suf, hb, hh⟩ hk
    have hp : c.post = suf := post_of_aligned hb hh
    cases suf with
    | nil =>
      rw [hp] at hk
      exact absurd hk (by simp)
    | cons ch rest =>
      have hstep := step_aligned ops hb hh
      have haligned2 : Aligned (c.step ops).2 := by
        refine ⟨pre ++ [ch], rest, ?_, ?_⟩
        · rw [hstep]
          simpa using hb
        · rw [hstep]
      have hlen2 : n ≤ (c.step ops).2.post.length := by
        have hp2 : (c.step ops).2.post = rest := by
          obtain ⟨p2, s2, hb2, hh2⟩ := haligned2
          have : (c.step ops).2.base = (pre ++ [ch]) ++ rest := by
            rw [hstep]; simpa using hb
          exact post_of_aligned this (by rw [hstep])
        rw [hp2]
        rw [hp] at hk
        simpa using Nat.lt_succ_iff.mp (Nat.lt_of_lt_of_le (Nat.lt_succ_self n)
          (by simpa using hk))
      have h1 : stepN ops (n + 1) c = stepN ops n (c.step ops).2 := rfl
      have h2 : ∀ x, unstepN ops (n + 1) x = ((unstepN ops n x).unstep ops).2 :=
        fun x => rfl
      rw [h1, h2, ih _ haligned2 hlen2]
      exact unstep_step ops hfb hb hh

theorem utf8Len_dropLast_le (l : Str) : utf8Len l.dropLast ≤ utf8Len l := by
  induction l with
  | nil => simp
  | cons c cs ih =>
    cases cs with
    | nil => simp
    | cons d ds =>
      simp only [List.dropLast_cons₂, utf8Len_cons] at ih ⊢
      omega

/-! ### Claim theorems -/

/-- C5: `step` returns `none` and leaves the whole cursor state unchanged
exactly when `post` is empty; otherwise it returns the first code point of
`post`, advances `highlight_length` by exactly that code point's UTF-8 encoded
width, applies the tracker's `forward` for it to `spanner_head`, and leaves
`base` and `spanner_tail` untouched. -/
theorem step_spec {S : Type} (ops : Spanner S) (c : StrCursor S) :
    ((c.step ops).1 = none ↔ c.post = []) ∧
    (c.post = [] → c.step ops = (none, c)) ∧
    (∀ ch rest, c.post = ch :: rest →
      (c.step ops).1 = some ch ∧
      (c.step ops).2.highlight_length = c.highlight_length + ch.utf8Size ∧
      (c.step ops).2.spanner_head = ops.forward c.spanner_head ch ∧
      (c.step ops).2.base = c.base ∧
      (c.step ops).2.spanner_tail = c.spanner_tail) := by
  refine ⟨?_, ?_, ?_⟩
  · cases hp : c.post with
    | nil => simp [StrCursor.step, hp]
    | cons ch rest => simp [StrCursor.step, hp]
  · intro hp
    simp [StrCursor.step, hp]
  · intro ch rest hp
    simp [StrCursor.step, hp]

/-- Witness for C5 at a concrete input. -/
theorem step_spec_witness :
    ((StrCursor.with_spanner ['a', 'b'] (⟨0⟩ : ByteSpanner)).step ByteSpanner.ops).1
      = some 'a' := by
  have h := step_spec ByteSpanner.ops (StrCursor.with_spanner ['a', 'b'] ⟨0⟩)
  exact (h.2.2 'a' ['b'] (by decide)).1

/-- C6: `unstep` returns `none` and leaves the whole cursor state unchanged
exactly when the highlight is empty; otherwise it returns the last code point
of the highlight, shrinks `highlight_length` back to the byte index where that
code point starts, and applies the tracker's `backward` for it to
`spanner_head`, leaving `base` and `spanner_tail` untouched. The new
`highlight_length` never exceeds the old one, so `head` never moves before
`tail` (the commit point). -/
theorem unstep_spec {S : Type} (ops : Spanner S) (c : StrCursor S) :
    ((c.unstep ops).1 = none ↔ c.highlight = []) ∧
    (c.highlight = [] → c.unstep ops = (none, c)) ∧
    (∀ ch, c.highlight.getLast? = some ch →
      (c.unstep ops).1 = some ch ∧
      (c.unstep ops).2.highlight_length = utf8Len c.highlight.dropLast ∧
      (c.unstep ops).2.spanner_head = ops.backward c.spanner_head ch ∧
      (c.unstep ops).2.base = c.base ∧
      (c.unstep ops).2.spanner_tail = c.spanner_tail) ∧
    (c.unstep ops).2.highlight_length ≤ c.highlight_length := by
  refine ⟨?_, ?_, ?_, ?_⟩
  · cases hl : c.highlight.getLast? with
    | none =>
      simp only [StrCursor.unstep, hl]
      simpa using List.getLast?_eq_none_iff.mp hl
    | some ch =>
      simp only [StrCursor.unstep, hl]
      constructor
      · intro h
        cases h
      · intro h
        rw [h] at hl
        cases hl
  · intro hl
    simp [StrCursor.unstep, hl]
  · intro ch hl
    simp [StrCursor.unstep, hl]
  · cases hl : c.highlight.getLast? with
    | none => simp [StrCursor.unstep, hl]
    | some ch =>
      simp only [StrCursor.unstep, hl]
      calc utf8Len c.highlight.dropLast ≤ utf8Len c.highlight :=
            utf8Len_dropLast_le _
        _ ≤ c.highlight_length := utf8Len_takeBytes_le _ _

/-- Witness for C6 at a concrete input. -/
theorem unstep_spec_witness :
    ((StrCursor.with_spanner ['a'] (⟨0⟩ : ByteSpanner)).unstep ByteSpanner.ops)
      = (none, StrCursor.with_spanner ['a'] ⟨0⟩) := by
  have h := unstep_spec ByteSpanner.ops (StrCursor.with_spanner ['a'] ⟨0⟩)
  exact h.2.1 (by decide)

theorem validate_validate {S : Type} (ops : Spanner S)
    (hv : ∀ s, ops.validate (ops.validate s) = ops.validate s) (c : StrCursor S) :
    (c.validate ops).validate ops = c.validate ops := by
  simp only [StrCursor.validate]
  rw [dropBytes_zero, hv]

/-- C9: `validate` is idempotent for every provided spanner strategy: after a
first `validate` the highlight length is 0, and a second `validate` leaves
`base`, `highlight_length`, `spanner_head` and `spanner_tail` unchanged. -/
theorem validate_idempotent :
    (∀ c : StrCursor Unit,
      (c.validate NoOpSpanner).validate NoOpSpanner = c.validate NoOpSpanner) ∧
    (∀ c : StrCursor ByteSpanner,
      (c.validate ByteSpanner.ops).validate ByteSpanner.ops
        = c.validate ByteSpanner.ops) ∧
    (∀ c : StrCursor CharSpanner,
      (c.validate CharSpanner.ops).validate CharSpanner.ops
        = c.validate CharSpanner.ops) ∧
    (∀ c : StrCursor RowColSpanner,
      (c.validate RowColSpanner.ops).validate RowColSpanner.ops
        = c.validate RowColSpanner.ops) ∧
    (∀ (S : Type) (ops : Spanner S) (c : StrCursor S),
      (c.validate ops).highlight_length = 0) :=
  ⟨fun c => validate_validate NoOpSpanner (fun _ => rfl) c,
   fun c => validate_validate ByteSpanner.ops (fun _ => rfl) c,
   fun c => validate_validate CharSpanner.ops (fun _ => rfl) c,
   fun c => validate_validate RowColSpanner.ops (fun _ => rfl) c,
   fun _ _ _ => rfl⟩

/-- C3: `then_validate f` returns exactly the result of `f` evaluated on the
highlight of the unmutated cursor; on `ok` the cursor then performs `validate`,
and on `error` the cursor — `highlight`, `post`, `base`, both trackers — is
byte-for-byte unchanged. -/
theorem then_validate_spec {S T E : Type} (ops : Spanner S) (f : Str → Except E T)
    (c : StrCursor S) :
    (c.then_validate ops f).1 = f c.highlight ∧
    (∀ t, f c.highlight = Except.ok t →
      (c.then_validate ops f).2 = c.validate ops) ∧
    (∀ e, f c.highlight = Except.error e →
      (c.then_validate ops f).2 = c ∧
      (c.then_validate ops f).2.highlight = c.highlight ∧
      (c.then_validate ops f).2.post = c.post ∧
      (c.then_validate ops f).2.base = c.base ∧
      (c.then_validate ops f).2.spanner_head = c.spanner_head ∧
      (c.then_validate ops f).2.spanner_tail = c.spanner_tail) := by
  cases hres : f c.highlight with
  | ok t =>
    refine ⟨by simp [StrCursor.then_validate, hres], ?_, ?_⟩
    · intro t2 h2
      simp [StrCursor.then_validate, hres]
    · intro e h2
      simp at h2
  | error e =>
    refine ⟨by simp [StrCursor.then_validate, hres], ?_, ?_⟩
    · intro t2 h2
      simp at h2
    · intro e2 h2
      simp [StrCursor.then_validate, hres]

/-- Witness for C3 at a concrete input: a failing closure mutates nothing. -/
theorem then_validate_spec_witness :
    ((StrCursor.with_spanner ['a'] (⟨0⟩ : ByteSpanner)).then_validate
        ByteSpanner.ops (fun _ => (Except.error 7 : Except Nat Nat))).2
      = StrCursor.with_spanner ['a'] ⟨0⟩ := by
  have h := then_validate_spec ByteSpanner.ops
    (fun _ => (Except.error 7 : Except Nat Nat))
    (StrCursor.with_spanner ['a'] ⟨0⟩)
  exact (h.2.2 7 rfl).1

/-- C7: `backward` after a matching `forward` restores the tracker exactly,
for the Byte-offset, Code-point-count and Row/Column strategies (including the
Row/Column saved-column stack); in this forward-then-backward order the
counters can never underflow, so the equality holds unconditionally. -/
theorem backward_forward_inverse :
    (∀ (s : ByteSpanner) (c : Char),
      ByteSpanner.ops.backward (ByteSpanner.ops.forward s c) c = s) ∧
    (∀ (s : CharSpanner) (c : Char),
      CharSpanner.ops.backward (CharSpanner.ops.forward s c) c = s) ∧
    (∀ (s : RowColSpanner) (c : Char),
      RowColSpanner.ops.backward (RowColSpanner.ops.forward s c) c = s) :=
  ⟨byte_backward_forward, char_backward_forward, rowCol_backward_forward⟩

/-- C10: for each provided strategy, the bulk update `forward_str` agrees with
applying `forward` once per code point in order: `ByteSpanner`'s byte-length
shortcut, `CharSpanner`'s code-point-count shortcut, `NoOpSpanner`'s no-op
override, and `RowColSpanner`'s default all equal the repeated-forward fold. -/
theorem forward_str_refines_fold :
    (∀ (s : Unit) (l : Str),
      NoOpSpanner.forward_str s l = foldForward NoOpSpanner s l) ∧
    (∀ (s : ByteSpanner) (l : Str),
      ByteSpanner.ops.forward_str s l = foldForward ByteSpanner.ops s l) ∧
    (∀ (s : CharSpanner) (l : Str),
      CharSpanner.ops.forward_str s l = foldForward CharSpanner.ops s l) ∧
    (∀ (s : RowColSpanner) (l : Str),
      RowColSpanner.ops.forward_str s l = foldForward RowColSpanner.ops s l) :=
  ⟨noOp_forward_str_fold, byte_forward_str_fold, char_forward_str_fold,
   rowCol_forward_str_fold⟩

/-- C8: the Row/Column tracker's `forward` on a newline increments `row`,
pushes the current `col` and resets `col` to 0; on any other control code
point it changes nothing; on any other code point it increments `col`.
`backward` is the exact inverse (newline decrements `row` and pops the saved
column, control is a no-op, otherwise `col` decrements). On the buffer
made of `a`, `b`, newline, `c`, `d`, three steps yield `(row = 1, col = 0)`
and one unstep restores
exactly `(row = 0, col = 2)`. -/
theorem rowcol_semantics :
    (∀ s : RowColSpanner, RowColSpanner.forward s '\n'
      = { row := s.row + 1, col := 0, old_cols := s.col :: s.old_cols }) ∧
    (∀ (s : RowColSpanner) (c : Char), c ≠ '\n' → charIsControl c = true →
      RowColSpanner.forward s c = s) ∧
    (∀ (s : RowColSpanner) (c : Char), c ≠ '\n' → charIsControl c = false →
      RowColSpanner.forward s c = { s with col := s.col + 1 }) ∧
    (∀ (s : RowColSpanner) (p : Nat) (rest : List Nat), s.old_cols = p :: rest →
      RowColSpanner.backward s '\n'
        = { row := s.row - 1, col := p, old_cols := rest }) ∧
    (∀ (s : RowColSpanner) (c : Char), c ≠ '\n' → charIsControl c = true →
      RowColSpanner.backward s c = s) ∧
    (∀ (s : RowColSpanner) (c : Char), c ≠ '\n' → charIsControl c = false →
      RowColSpanner.backward s c = { s with col := s.col - 1 }) ∧
    (∀ (s : RowColSpanner) (c : Char),
      RowColSpanner.backward (RowColSpanner.forward s c) c = s) ∧
    ((stepN RowColSpanner.ops 3
        (StrCursor.with_spanner ['a', 'b', '\n', 'c', 'd']
          ⟨0, 0, []⟩)).spanner_head = ⟨1, 0, [2]⟩) ∧
    (((stepN RowColSpanner.ops 3
        (StrCursor.with_spanner ['a', 'b', '\n', 'c', 'd']
          ⟨0, 0, []⟩)).unstep RowColSpanner.ops).2.spanner_head = ⟨0, 2, []⟩) := by
  refine ⟨?_, ?_, ?_, ?_, ?_, ?_, fun s c => rowCol_backward_forward s c, ?_, ?_⟩
  · intro s
    simp [RowColSpanner.forward]
  · intro s c h1 h2
    simp [RowColSpanner.forward, h1, h2]
  · intro s c h1 h2
    simp [RowColSpanner.forward, h1, h2]
  · intro s p rest h
    simp [RowColSpanner.backward, h]
  · intro s c h1 h2
    simp [RowColSpanner.backward, h1, h2]
  · intro s c h1 h2
    simp [RowColSpanner.backward, h1, h2]
  · decide
  · decide

/-- Witness for C8 at concrete inputs: a printable code point bumps the
column, a non-newline control code point changes nothing. -/
theorem rowcol_semantics_witness :
    RowColSpanner.forward ⟨0, 0, []⟩ 'x' = ⟨0, 1, []⟩ ∧
    RowColSpanner.forward ⟨0, 5, []⟩ '\t' = ⟨0, 5, []⟩ := by
  constructor
  · have h := rowcol_semantics.2.2.1 ⟨0, 0, []⟩ 'x' (by decide) (by decide)
    simpa using h
  · have h := rowcol_semantics.2.1 ⟨0, 5, []⟩ '\t' (by decide) (by decide)
    simpa using h

theorem findChar_valid (p : Char → Bool) : ValidFind (findChar p) := by
  intro s off h
  induction s generalizing off with
  | nil => exact absurd h (by simp [findChar])
  | cons c cs ih =>
    by_cases hp : p c
    · have h0 : findChar p (c :: cs) = some 0 := by simp [findChar, hp]
      rw [h0] at h
      have hz : 0 = off := Option.some.inj h
      exact ⟨0, by simp [← hz]⟩
    · have h0 : findChar p (c :: cs) = (findChar p cs).map (· + c.utf8Size) := by
        simp [findChar, hp]
      rw [h0] at h
      cases h2 : findChar p cs with
      | none =>
        rw [h2] at h
        cases h
      | some off2 =>
        rw [h2] at h
        simp at h
        obtain ⟨k, hk⟩ := ih off2 h2
        refine ⟨k + 1, ?_⟩
        simp only [List.take_succ_cons, utf8Len_cons]
        omega

theorem findStr_valid (needle : Str) : ValidFind (findStr needle) := by
  intro s off h
  induction s generalizing off with
  | nil =>
    by_cases he : needle.isEmpty
    · have h0 : findStr needle [] = some 0 := by simp [findStr, he]
      rw [h0] at h
      have hz : 0 = off := Option.some.inj h
      exact ⟨0, by simp [← hz]⟩
    · have h0 : findStr needle [] = none := by simp [findStr, he]
      rw [h0] at h
      cases h
  | cons c cs ih =>
    by_cases hp : needle.isPrefixOf (c :: cs)
    · have h0 : findStr needle (c :: cs) = some 0 := by simp [findStr, hp]
      rw [h0] at h
      have hz : 0 = off := Option.some.inj h
      exact ⟨0, by simp [← hz]⟩
    · have h0 : findStr needle (c :: cs) = (findStr needle cs).map (· + c.utf8Size) := by
        simp [findStr, hp]
      rw [h0] at h
      cases h2 : findStr needle cs with
      | none =>
        rw [h2] at h
        cases h
      | some off2 =>
        rw [h2] at h
        simp at h
        obtain ⟨k, hk⟩ := ih off2 h2
        refine ⟨k + 1, ?_⟩
        simp only [List.take_succ_cons, utf8Len_cons]
        omega

/-- C2: for every built-in pattern (the code-point-test patterns and the
literal-substring patterns, whose `find` offsets always lie on code-point
boundaries) and every aligned cursor state, `step_until` consumes exactly up
to the offset of the first match in `post` — all of `post` when there is no
match — returns exactly the consumed slice, applies the bulk `forward_str` to
exactly that slice, never consumes past the buffer's end, stays on code-point
boundaries, and the returned slice's byte length plus the old
`highlight_length` equals the new `highlight_length`. -/
theorem step_until_spec :
    (∀ p : Char → Bool, ValidFind (findChar p)) ∧
    (∀ needle : Str, ValidFind (findStr needle)) ∧
    (∀ (S : Type) (ops : Spanner S) (find : Str → Option Nat) (c : StrCursor S),
      ValidFind find → Aligned c →
      ∃ res rest,
        (c.step_until ops find).1 = res ∧
        c.post = res ++ rest ∧
        (find c.post = none → rest = []) ∧
        (∀ off, find c.post = some off → off = utf8Len res) ∧
        (c.step_until ops find).2.highlight_length
          = c.highlight_length + utf8Len res ∧
        (c.step_until ops find).2.spanner_head
          = ops.forward_str c.spanner_head res ∧
        (c.step_until ops find).2.base = c.base ∧
        (c.step_until ops find).2.spanner_tail = c.spanner_tail ∧
        (c.step_until ops find).2.highlight_length ≤ utf8Len c.base ∧
        Aligned (c.step_until ops find).2) := by
  refine ⟨findChar_valid, findStr_valid, ?_⟩
  rintro S ops find c hfv ⟨pre, suf, hb, hh⟩
  have hpost : c.post = suf := post_of_aligned hb hh
  obtain ⟨res, rest, hsuf, hnone, hsome, heq⟩ := step_until_aligned ops hfv hb hh
  refine ⟨res, rest, by rw [heq], by rw [hpost, hsuf], ?_, ?_, ?_, ?_, ?_, ?_, ?_, ?_⟩
  · rw [hpost]
    exact hnone
  · rw [hpost]
    exact hsome
  · rw [heq]
    show utf8Len (pre ++ res) = c.highlight_length + utf8Len res
    rw [hh]
    simp
  · rw [heq]
  · rw [heq]
  · rw [heq]
  · rw [heq]
    show utf8Len (pre ++ res) ≤ utf8Len c.base
    rw [hb, hsuf]
    simp
  · rw [heq]
    refine ⟨pre ++ res, rest, ?_, rfl⟩
    show c.base = (pre ++ res) ++ rest
    rw [hb, hsuf, List.append_assoc]

/-- Witness for C2 at a concrete input: searching for a blank over the buffer
`h`, `i`, blank, `x` from a fresh cursor. -/
theorem step_until_spec_witness :
    ∃ res rest,
      ((StrCursor.with_spanner ['h', 'i', ' ', 'x']
          (⟨0⟩ : ByteSpanner)).step_until ByteSpanner.ops
            (findChar (fun c => c == ' '))).1 = res ∧
      (StrCursor.with_spanner ['h', 'i', ' ', 'x']
          (⟨0⟩ : ByteSpanner)).post = res ++ rest ∧
      (findChar (fun c => c == ' ')
          (StrCursor.with_spanner ['h', 'i', ' ', 'x']
            (⟨0⟩ : ByteSpanner)).post = none → rest = []) ∧
      (∀ off, findChar (fun c => c == ' ')
          (StrCursor.with_spanner ['h', 'i', ' ', 'x']
            (⟨0⟩ : ByteSpanner)).post = some off → off = utf8Len res) ∧
      ((StrCursor.with_spanner ['h', 'i', ' ', 'x']
          (⟨0⟩ : ByteSpanner)).step_until ByteSpanner.ops
            (findChar (fun c => c == ' '))).2.highlight_length
        = (StrCursor.with_spanner ['h', 'i', ' ', 'x']
            (⟨0⟩ : ByteSpanner)).highlight_length + utf8Len res ∧
      ((StrCursor.with_spanner ['h', 'i', ' ', 'x']
          (⟨0⟩ : ByteSpanner)).step_until ByteSpanner.ops
            (findChar (fun c => c == ' '))).2.spanner_head
        = ByteSpanner.ops.forward_str
            (StrCursor.with_spanner ['h', 'i', ' ', 'x']
              (⟨0⟩ : ByteSpanner)).spanner_head res ∧
      ((StrCursor.with_spanner ['h', 'i', ' ', 'x']
          (⟨0⟩ : ByteSpanner)).step_until ByteSpanner.ops
            (findChar (fun c => c == ' '))).2.base
        = (StrCursor.with_spanner ['h', 'i', ' ', 'x'] (⟨0⟩ : ByteSpanner)).base ∧
      ((StrCursor.with_spanner ['h', 'i', ' ', 'x']
          (⟨0⟩ : ByteSpanner)).step_until ByteSpanner.ops
            (findChar (fun c => c == ' '))).2.spanner_tail
        = (StrCursor.with_spanner ['h', 'i', ' ', 'x']
            (⟨0⟩ : ByteSpanner)).spanner_tail ∧
      ((StrCursor.with_spanner ['h', 'i', ' ', 'x']
          (⟨0⟩ : ByteSpanner)).step_until ByteSpanner.ops
            (findChar (fun c => c == ' '))).2.highlight_length
        ≤ utf8Len (StrCursor.with_spanner ['h', 'i', ' ', 'x']
            (⟨0⟩ : ByteSpanner)).base ∧
      Aligned ((StrCursor.with_spanner ['h', 'i', ' ', 'x']
          (⟨0⟩ : ByteSpanner)).step_until ByteSpanner.ops
            (findChar (fun c => c == ' '))).2 := by
  obtain ⟨h1, _, h3⟩ := step_until_spec
  exact h3 ByteSpanner ByteSpanner.ops (findChar (fun c => c == ' '))
    (StrCursor.with_spanner ['h', 'i', ' ', 'x'] ⟨0⟩)
    (h1 (fun c => c == ' ')) ⟨[], ['h', 'i', ' ', 'x'], rfl, rfl⟩

/-- C1: at every reachable cursor state, for each provided spanner strategy,
`spanner_head` equals the tracker's `forward` applied for every code point of
the current highlight, in order, starting from `spanner_tail` — the value the
tail tracker has held since the last `validate` (or creation) — and `step`,
`unstep` and `step_until` never change `spanner_tail` or `base`. -/
theorem head_tracks_highlight :
    (∀ c : StrCursor Unit, Reachable NoOpSpanner c →
      c.spanner_head = foldForward NoOpSpanner c.spanner_tail c.highlight) ∧
    (∀ c : StrCursor ByteSpanner, Reachable ByteSpanner.ops c →
      c.spanner_head = foldForward ByteSpanner.ops c.spanner_tail c.highlight) ∧
    (∀ c : StrCursor CharSpanner, Reachable CharSpanner.ops c →
      c.spanner_head = foldForward CharSpanner.ops c.spanner_tail c.highlight) ∧
    (∀ c : StrCursor RowColSpanner, Reachable RowColSpanner.ops c →
      c.spanner_head = foldForward RowColSpanner.ops c.spanner_tail c.highlight) ∧
    (∀ (S : Type) (ops : Spanner S) (c : StrCursor S),
      (c.step ops).2.spanner_tail = c.spanner_tail ∧
      (c.step ops).2.base = c.base ∧
      (c.unstep ops).2.spanner_tail = c.spanner_tail ∧
      (c.unstep ops).2.base = c.base ∧
      (∀ find : Str → Option Nat,
        (c.step_until ops find).2.spanner_tail = c.spanner_tail ∧
        (c.step_until ops find).2.base = c.base)) := by
  refine ⟨?_, ?_, ?_, ?_, ?_⟩
  · rintro c ⟨s0, sp, h⟩
    exact (reach_invariant NoOpSpanner (fun _ _ => rfl) noOp_forward_str_fold h).2
  · rintro c ⟨s0, sp, h⟩
    exact (reach_invariant ByteSpanner.ops byte_backward_forward
      byte_forward_str_fold h).2
  · rintro c ⟨s0, sp, h⟩
    exact (reach_invariant CharSpanner.ops char_backward_forward
      char_forward_str_fold h).2
  · rintro c ⟨s0, sp, h⟩
    exact (reach_invariant RowColSpanner.ops rowCol_backward_forward
      (fun _ _ => rfl) h).2
  · intro S ops c
    refine ⟨?_, ?_, ?_, ?_, fun find => ⟨rfl, rfl⟩⟩
    · cases hp : c.post <;> simp [StrCursor.step, hp]
    · cases hp : c.post <;> simp [StrCursor.step, hp]
    · cases hl : c.highlight.getLast? <;> simp [StrCursor.unstep, hl]
    · cases hl : c.highlight.getLast? <;> simp [StrCursor.unstep, hl]

/-- Witness for C1 at a concrete reachable state: one step into a two-byte
buffer with the byte tracker. -/
theorem head_tracks_highlight_witness :
    ((StrCursor.with_spanner ['a', 'b'] (⟨5⟩ : ByteSpanner)).step
        ByteSpanner.ops).2.spanner_head
      = foldForward ByteSpanner.ops
          ((StrCursor.with_spanner ['a', 'b'] (⟨5⟩ : ByteSpanner)).step
              ByteSpanner.ops).2.spanner_tail
          ((StrCursor.with_spanner ['a', 'b'] (⟨5⟩ : ByteSpanner)).step
              ByteSpanner.ops).2.highlight :=
  head_tracks_highlight.2.1
    ((StrCursor.with_spanner ['a', 'b'] ⟨5⟩).step ByteSpanner.ops).2
    ⟨['a', 'b'], ⟨5⟩, Reach.step _ Reach.refl⟩

/-- C4: for each provided spanner strategy, every aligned cursor state and
every code-point count `k` no larger than the remaining `post`, stepping `k`
times and then unstepping `k` times restores the cursor — `base`,
`highlight_length`, `spanner_head` and `spanner_tail` (including the
Row/Column saved-column stack) — exactly. -/
theorem step_unstep_roundtrip :
    (∀ (c : StrCursor Unit) (k : Nat), Aligned c → k ≤ c.post.length →
      unstepN NoOpSpanner k (stepN NoOpSpanner k c) = c) ∧
    (∀ (c : StrCursor ByteSpanner) (k : Nat), Aligned c → k ≤ c.post.length →
      unstepN ByteSpanner.ops k (stepN ByteSpanner.ops k c) = c) ∧
    (∀ (c : StrCursor CharSpanner) (k : Nat), Aligned c → k ≤ c.post.length →
      unstepN CharSpanner.ops k (stepN CharSpanner.ops k c) = c) ∧
    (∀ (c : StrCursor RowColSpanner) (k : Nat), Aligned c → k ≤ c.post.length →
      unstepN RowColSpanner.ops k (stepN RowColSpanner.ops k c) = c) :=
  ⟨fun c k ha hk => unstepN_stepN NoOpSpanner (fun _ _ => rfl) k c ha hk,
   fun c k ha hk => unstepN_stepN ByteSpanner.ops byte_backward_forward k c ha hk,
   fun c k ha hk => unstepN_stepN CharSpanner.ops char_backward_forward k c ha hk,
   fun c k ha hk =>
     unstepN_stepN RowColSpanner.ops rowCol_backward_forward k c ha hk⟩

/-- Witness for C4 at a concrete input: three steps and three unsteps across a
newline with the Row/Column tracker restore the fresh cursor exactly. -/
theorem step_unstep_roundtrip_witness :
    unstepN RowColSpanner.ops 3
        (stepN RowColSpanner.ops 3
          (StrCursor.with_spanner ['a', 'b', '\n', 'c'] ⟨0, 0, []⟩))
      = StrCursor.with_spanner ['a', 'b', '\n', 'c'] ⟨0, 0, []⟩ :=
  step_unstep_roundtrip.2.2.2
    (StrCursor.with_spanner ['a', 'b', '\n', 'c'] ⟨0, 0, []⟩) 3
    ⟨[], ['a', 'b', '\n', 'c'], rfl, rfl⟩ (by decide)
